import Mathlib

/-!
Verification of the BROKEN_FIELD evaluation core.

Shallow embedding of the two bytecode interpreters of the repository:

* `BF` models `src/bf.rs` (the Brainfuck-family "CT-Lang" tape machine);
* `Bytebeat` models `src/bytebeat.rs` (the stack-based "Stack-Beat"
  expression language).

Modelling conventions, used consistently below:

* Rust `usize` is `ℕ`, `isize`/`i64`/`i8` are `ℤ` with explicit wrapping
  (`wrap64`, `wrap8`) exactly where the source uses wrapping operations.
  Rust `%` on integers is truncated remainder, modelled by `Int.tmod`;
  Rust `/` is `Int.tdiv`.
* Rust `f64` is modelled by `ℚ`.  Every fact proved about floats below
  only exercises exact values (zero tests and small literals), where the
  rational model and IEEE doubles agree.  The transcendental operations
  (`sin`, `cos`, `tan`, `powf`), which have no rational counterpart, are
  taken as an explicit parameter (`FloatFns`) and all theorems hold for
  every choice of them.
* Rust `String` is `String` (for tokens stored in commands) or
  `List Char` (for the serialized program text).
* A Rust iterator of inputs is a `List ℤ` threaded through the stepper.
* Randomness: `mutate` in both files draws, per instruction, whether to
  mutate and a replacement from a fixed family.  The draws are modelled
  as explicit oracle functions (`sel`, `choice`, `MutOracle`), so the
  theorems quantify over every possible random outcome.
* A Rust panic (`unwrap`/`expect`/`unimplemented!`) inside a function
  that a claim must show "does not fault" is modelled by `Option`
  (`none` = panic).  Panics that are unreachable for the inputs the
  claims quantify over (e.g. popping an empty stack in `eval_beat`,
  which compilation rules out) are modelled by a harmless default and
  noted at the definition.
-/

namespace BF

/-- The 8 CT-Lang instructions, `enum BFChar` in `src/bf.rs`. -/
inductive BFChar
  | Plus
  | Minus
  | Left
  | Right
  | StartLoop
  | EndLoop
  | Input
  | Output
  deriving DecidableEq, Repr

/-- Brace-balance contribution of one instruction: `+1` for `StartLoop`,
`-1` for `EndLoop`, `0` otherwise.  This is the increment/decrement that
`is_valid` in `src/bf.rs` applies to `num_open_braces`. -/
def braceDelta : BFChar → ℤ
  | .StartLoop => 1
  | .EndLoop => -1
  | _ => 0

/-- The validator loop of `is_valid` (`src/bf.rs:265`): `n` is the running
`num_open_braces`; returns `false` as soon as it goes negative, and at the
end requires it to be exactly `0`. -/
def isValidGo : List BFChar → ℤ → Bool
  | [], n => n == 0
  | c :: rest, n =>
    if n + braceDelta c < 0 then false else isValidGo rest (n + braceDelta c)

/-- `is_valid` from `src/bf.rs`. -/
def is_valid (program : List BFChar) : Bool :=
  isValidGo program 0

/-- The brace balance of the length-`i` prefix of `program` (specification
vocabulary for the claims about `is_valid`). -/
def braceBalance (program : List BFChar) (i : ℕ) : ℤ :=
  ((program.take i).map braceDelta).sum

/-- The scan of `loop_dict` (`src/bf.rs:138`): `i` is the current index,
`stk` the stack of pending `StartLoop` positions (`startloop_locs`), `acc`
the map built so far.  As in the source, a `StartLoop` at `i` inserts the
placeholder entry `(i, 0)` — which is never updated later — and an
`EndLoop` at `i` inserts `(i, j)` for the matching `StartLoop` position
`j`.  The source `expect`s on popping an empty `startloop_locs`; that case
(unreachable for valid programs) is modelled by skipping the insert. -/
def loopDictGo : List BFChar → ℕ → List ℕ → List (ℕ × ℕ) → List (ℕ × ℕ)
  | [], _, _, acc => acc
  | c :: rest, i, stk, acc =>
    match c with
    | .StartLoop => loopDictGo rest (i + 1) (i :: stk) ((i, 0) :: acc)
    | .EndLoop =>
      match stk with
      | [] => loopDictGo rest (i + 1) [] acc
      | j :: stk2 => loopDictGo rest (i + 1) stk2 ((i, j) :: acc)
    | _ => loopDictGo rest (i + 1) stk acc

/-- `loop_dict` from `src/bf.rs`.  The `HashMap<usize, usize>` is modelled
as an association list; every key is inserted at most once, so the order
of entries is irrelevant. -/
def loop_dict (program : List BFChar) : List (ℕ × ℕ) :=
  loopDictGo program 0 [] []

/-- `struct Program` from `src/bf.rs`: instruction list plus the derived
jump table. -/
structure Program where
  instrs : List BFChar
  loopDict : List (ℕ × ℕ)
  deriving DecidableEq, Repr

/-- `Program::new` (the `debug_assert!(is_valid(..))` is a debug-only
precondition, not part of the value computed). -/
def Program.new (instrs : List BFChar) : Program :=
  ⟨instrs, loop_dict instrs⟩

/-- `Program::matching_loop`: look the index up in the jump table. -/
def Program.matchingLoop (p : Program) (i : ℕ) : Option ℕ :=
  (p.loopDict.find? (fun e => e.1 == i)).map (fun e => e.2)

/-- `enum MemoryBehavior` from `src/bf.rs`. -/
inductive MemoryBehavior
  | Wrapping (modulo : ℕ)
  | InfiniteRightwards
  deriving DecidableEq, Repr

/-- `INITAL_MEMORY` from `src/bf.rs` (sic). -/
def INITAL_MEMORY : ℕ := 256

/-- `EXTEND_MEMORY_AMOUNT` from `src/bf.rs`. -/
def EXTEND_MEMORY_AMOUNT : ℕ := 64

/-- `struct BFState` from `src/bf.rs`; memory cells are `i8`, modelled as
integers kept in range by `wrap8`. -/
structure BFState where
  program_pointer : ℕ
  memory_pointer : ℕ
  memory : List ℤ
  memory_behavior : MemoryBehavior
  output : List ℤ
  deriving DecidableEq, Repr

/-- `BFState::new()`: 256 zeroed cells, `Wrapping(256)` pointer policy. -/
def BFState.new : BFState :=
  ⟨0, 0, List.replicate INITAL_MEMORY 0, .Wrapping INITAL_MEMORY, []⟩

/-- Two's-complement wrap of an `i8` value. -/
def wrap8 (z : ℤ) : ℤ := (z + 128) % 256 - 128

/-- `wrapping_add` from `src/bf.rs:92`: pointer arithmetic modulo
`modulo`.  In the source `x + modulo` is cast to `usize` before the final
`%`; for the arguments the stepper uses (`b = ±1`, so `x ≥ -1` and
`x + modulo ≥ 0`) that cast is the identity, which is what `toNat` of the
(nonnegative) Euclidean remainder computes. -/
def wrapping_add (a : ℕ) (b : ℤ) (modulo : ℕ) : ℕ :=
  if (a : ℤ) + b < 0 then (((a : ℤ) + b + modulo) % modulo).toNat
  else (((a : ℤ) + b) % modulo).toNat

/-- The cell currently addressed by the memory pointer
(`self.memory[self.memory_pointer]`; in-bounds for every reachable state,
see the pointer-invariant theorem). -/
def BFState.cell (s : BFState) : ℤ :=
  s.memory.getD s.memory_pointer 0

/-- `halted` from `src/bf.rs`. -/
def halted (s : BFState) (p : Program) : Bool :=
  p.instrs.length ≤ s.program_pointer

/-- `BFState::step` from `src/bf.rs:32`, on a configuration of state plus
remaining input.  The source `debug_assert!`s the state is not halted and
would index out of bounds fetching the instruction otherwise; the fetch is
modelled with `get?`, returning the configuration unchanged in that
unreachable case.  `matching_loop(..).expect(..)` is modelled by `getD`
(every `StartLoop`/`EndLoop` of a valid program has a jump-table entry).
After the instruction executes, `program_pointer` is incremented by one —
also after a loop jump, so execution resumes at the jump target + 1. -/
def step (p : Program) (c : BFState × List ℤ) : BFState × List ℤ :=
  let s := c.1
  let input := c.2
  match p.instrs.get? s.program_pointer with
  | none => c
  | some instr =>
    let next : BFState × List ℤ :=
      match instr with
      | .Plus =>
        ({ s with memory := s.memory.set s.memory_pointer (wrap8 (s.cell + 1)) }, input)
      | .Minus =>
        ({ s with memory := s.memory.set s.memory_pointer (wrap8 (s.cell - 1)) }, input)
      | .Left =>
        match s.memory_behavior with
        | .Wrapping m => ({ s with memory_pointer := wrapping_add s.memory_pointer (-1) m }, input)
        | .InfiniteRightwards => ({ s with memory_pointer := s.memory_pointer - 1 }, input)
      | .Right =>
        match s.memory_behavior with
        | .Wrapping m => ({ s with memory_pointer := wrapping_add s.memory_pointer 1 m }, input)
        | .InfiniteRightwards =>
          let mp := s.memory_pointer + 1
          let mem :=
            if s.memory.length ≤ mp then s.memory ++ List.replicate EXTEND_MEMORY_AMOUNT 0
            else s.memory
          ({ s with memory_pointer := mp, memory := mem }, input)
      | .StartLoop =>
        (if s.cell = 0 then
          { s with program_pointer := (p.matchingLoop s.program_pointer).getD s.program_pointer }
         else s, input)
      | .EndLoop =>
        (if s.cell ≠ 0 then
          { s with program_pointer := (p.matchingLoop s.program_pointer).getD s.program_pointer }
         else s, input)
      | .Input =>
        match input with
        | [] => ({ s with memory := s.memory.set s.memory_pointer 0 }, [])
        | x :: rest => ({ s with memory := s.memory.set s.memory_pointer x }, rest)
      | .Output =>
        ({ s with output := s.output ++ [s.cell] }, input)
    ({ next.1 with program_pointer := next.1.program_pointer + 1 }, next.2)

/-- `n` repeated calls of `step` from configuration `c`. -/
def stepN (p : Program) (c : BFState × List ℤ) : ℕ → BFState × List ℤ
  | 0 => c
  | n + 1 => step p (stepN p c n)

/-- The serialization table of `to_string` in `src/bf.rs`. -/
def toChar : BFChar → Char
  | .Plus => '+'
  | .Minus => '-'
  | .Left => '<'
  | .Right => '>'
  | .StartLoop => '['
  | .EndLoop => ']'
  | .Input => ','
  | .Output => '.'

/-- `to_string` from `src/bf.rs` (a Rust `String` as its character
sequence). -/
def to_string (program : List BFChar) : List Char :=
  program.map toChar

/-- The parsing table of `from_string` in `src/bf.rs`; unknown characters
map to `none` (`continue` in the source). -/
def charToInstr : Char → Option BFChar
  | '+' => some .Plus
  | '-' => some .Minus
  | '<' => some .Left
  | '>' => some .Right
  | '[' => some .StartLoop
  | ']' => some .EndLoop
  | ',' => some .Input
  | '.' => some .Output
  | _ => none

/-- The instruction list accumulated by `from_string`. -/
def parseChars (s : List Char) : List BFChar :=
  s.filterMap charToInstr

/-- `from_string` from `src/bf.rs`: parse the characters and build a
`Program`. -/
def from_string (s : List Char) : Program :=
  Program.new (parseChars s)

/-- The six replacement candidates the source draws from when mutating a
non-loop instruction (`src/bf.rs:170`). -/
def mutationChoices : List BFChar :=
  [.Plus, .Minus, .Left, .Right, .Input, .Output]

/-- The replacement `mutate` (`src/bf.rs:163`) builds for the instruction
at position `i` when that position's mutation draw fired: loops map to
themselves, everything else becomes the drawn instruction `choice i`. -/
def mutateInstr (choice : ℕ → BFChar) (i : ℕ) : BFChar → BFChar
  | .StartLoop => .StartLoop
  | .EndLoop => .EndLoop
  | _ => choice i

/-- The loop of `mutate`: `sel i` says whether the draw
`mutation_chance > gen_range(0.0, 1.0)` came out true at position `i`, and
`choice i` is the instruction drawn from `mutationChoices` there. -/
def mutateGo (sel : ℕ → Bool) (choice : ℕ → BFChar) : ℕ → List BFChar → List BFChar
  | _, [] => []
  | i, c :: rest =>
    (if sel i then mutateInstr choice i c else c) :: mutateGo sel choice (i + 1) rest

/-- `mutate` from `src/bf.rs`, as the mutated instruction list (the source
then rebuilds a `Program` via `Program::new`, whose validity assertion is
exactly what the mutation theorem establishes). -/
def mutate (instrs : List BFChar) (sel : ℕ → Bool) (choice : ℕ → BFChar) : List BFChar :=
  mutateGo sel choice 0 instrs

/-- The pointer invariant maintained by `step`: the memory pointer is in
bounds, and under `Wrapping m` the modulus is positive and never exceeds
the tape length. -/
def PtrInv (s : BFState) : Prop :=
  s.memory_pointer < s.memory.length ∧
    ∀ m, s.memory_behavior = .Wrapping m → 0 < m ∧ m ≤ s.memory.length

end BF

namespace Bytebeat

/-- `enum VarType` from `src/bytebeat.rs`. -/
inductive VarType
  | Frame
  | MouseX
  | MouseY
  | ScreenX
  | ScreenY
  | KeyboardX
  | KeyboardY
  deriving DecidableEq, Repr

/-- `enum BiType`: the ten binary integer operators. -/
inductive BiType
  | Add
  | Sub
  | Mul
  | Div
  | Mod
  | Shl
  | Shr
  | And
  | Orr
  | Xor
  deriving DecidableEq, Repr

/-- `enum TrigType`. -/
inductive TrigType
  | Sin
  | Cos
  | Tan
  deriving DecidableEq, Repr

/-- `enum BiFloatType`: the six binary float operators. -/
inductive BiFloatType
  | Pow
  | AddF
  | SubF
  | MulF
  | DivF
  | ModF
  deriving DecidableEq, Repr

/-- `enum CompType`: the six comparison operators. -/
inductive CompType
  | Lt
  | Gt
  | Leq
  | Geq
  | Eq
  | Neq
  deriving DecidableEq, Repr

/-- `enum LiteralType`: float, integer and hex-integer literals
(`f64` modelled as `ℚ`, `i64` as `ℤ`). -/
inductive LiteralType
  | NumF (x : ℚ)
  | NumI (x : ℤ)
  | Hex (x : ℤ)
  deriving DecidableEq, Repr

/-- `enum Cmd` from `src/bytebeat.rs`. -/
inductive Cmd
  | Var (v : VarType)
  | Literal (l : LiteralType)
  | Bi (op : BiType)
  | Trig (op : TrigType)
  | BiFloat (op : BiFloatType)
  | Comp (op : CompType)
  | Cond
  | Arr (size : ℕ)
  | Meta (key value : String)
  | Comment (text : String)
  deriving DecidableEq, Repr

/-- `Cmd::stack_change` from `src/bytebeat.rs:88`, the static stack effect
of each opcode.  (The source saturates the `usize → isize` cast for
`Arr`; the saturation is invisible for any representable stack depth and
is omitted in the `ℕ → ℤ` model.) -/
def stack_change : Cmd → ℤ
  | .Var _ => 1
  | .Literal _ => 1
  | .Meta _ _ => 0
  | .Comment _ => 0
  | .Trig _ => 0
  | .Arr x => -(x : ℤ)
  | .Cond => -2
  | .Bi _ => -1
  | .BiFloat _ => -1
  | .Comp _ => -1

/-- `enum ErrorKind` from `src/bytebeat.rs`. -/
inductive ErrorKind
  | UnderflowedStack (index : ℕ) (stack_size : ℤ)
  | EmptyProgram
  deriving DecidableEq, Repr

/-- `struct Program` from `src/bytebeat.rs`: the command list plus the
collected metadata.  The `HashMap<String, Vec<String>>` is modelled as the
ordered list of `(key, value)` pairs in program order (no claim below
inspects the grouping). -/
structure Program where
  cmds : List Cmd
  meta : List (String × String)
  deriving DecidableEq, Repr

/-- The metadata collection pass at the top of `compile`. -/
def collectMeta (cmds : List Cmd) : List (String × String) :=
  cmds.filterMap (fun c =>
    match c with
    | .Meta k v => some (k, v)
    | _ => none)

/-- The validation loop of `compile` (`src/bytebeat.rs:152`): `d` is the
running `stack_size`, `i` the index of the current command.  Returns the
`(index, stack_size)` recorded by the first command whose check
`stack_size + stack_change ≤ 0` fires (`stack_size` being the depth
*before* that command's effect), or `none` if every check passes. -/
def findErr : List Cmd → ℤ → ℕ → Option (ℕ × ℤ)
  | [], _, _ => none
  | c :: rest, d, i =>
    if d + stack_change c ≤ 0 then some (i, d)
    else findErr rest (d + stack_change c) (i + 1)

/-- The running stack depth before command `i`: the sum of static stack
effects of the first `i` commands (specification vocabulary). -/
def runDepth (cmds : List Cmd) (i : ℕ) : ℤ :=
  ((cmds.take i).map stack_change).sum

/-- The net static stack effect of the whole command list. -/
def depthSum (cmds : List Cmd) : ℤ :=
  (cmds.map stack_change).sum

/-- The command at index `i` (the default is irrelevant: every use is
guarded by `i < cmds.length`). -/
def cmdAt (cmds : List Cmd) (i : ℕ) : Cmd :=
  cmds.getD i .Cond

/-- `compile` from `src/bytebeat.rs:139`: run the per-command checks; if
none fires and the final depth is `0`, reject with `EmptyProgram`,
otherwise accept. -/
def compile (cmds : List Cmd) : Except ErrorKind Program :=
  match findErr cmds 0 0 with
  | some (i, d) => .error (.UnderflowedStack i d)
  | none =>
    if depthSum cmds = 0 then .error .EmptyProgram
    else .ok ⟨cmds, collectMeta cmds⟩

/-- `enum Val`: the tagged integer/float value (`f64` as `ℚ`, `i64` as
`ℤ`). -/
inductive Val
  | F (x : ℚ)
  | I (x : ℤ)
  deriving DecidableEq, Repr

/-- Two's-complement wrap of an `i64` value. -/
def wrap64 (z : ℤ) : ℤ := (z + 2 ^ 63) % 2 ^ 64 - 2 ^ 63

/-- Truncation of a rational toward zero (the rounding of Rust's
float-to-int `as` casts and of `f64`'s `%`). -/
def ratTrunc (q : ℚ) : ℤ :=
  q.num.tdiv (q.den : ℤ)

/-- Rust's saturating `f64 as i64` cast on the rational model. -/
def f64_as_i64 (q : ℚ) : ℤ :=
  let t := ratTrunc q
  if t < -(2 ^ 63) then -(2 ^ 63)
  else if t > 2 ^ 63 - 1 then 2 ^ 63 - 1
  else t

/-- `From<Val> for i64`. -/
def Val.toI : Val → ℤ
  | .F x => f64_as_i64 x
  | .I x => x

/-- `From<Val> for f64` (`i64 as f64` rounds for magnitudes above `2^53`;
the claims below never exercise that regime, and the model keeps the value
exact). -/
def Val.toF : Val → ℚ
  | .F x => x
  | .I x => (x : ℚ)

/-- `From<Val> for bool`: false exactly for integer 0 and float 0.0. -/
def Val.toB : Val → Bool
  | .F x => !(x == 0)
  | .I x => !(x == 0)

/-- `From<bool> for Val`. -/
def Val.ofB : Bool → Val
  | true => .I 1
  | false => .I 0

/-- `PartialOrd for Val` (`partial_cmp`): mixed pairs are compared after
promoting the integer to float.  On the rational model the order is total,
so the result is a plain `Ordering`. -/
def valCmp : Val → Val → Ordering
  | .I l, .I r => compare l r
  | .F l, .F r => compare l r
  | .I l, .F r => compare (l : ℚ) r
  | .F l, .I r => compare l (r : ℚ)

/-- `PartialEq for Val`: mixed pairs are equal iff they agree both as
floats and after truncating the float back to `i64` (the source's
deliberately non-standard dual check). -/
def valEq : Val → Val → Bool
  | .I l, .I r => l == r
  | .F l, .F r => l == r
  | .I l, .F r => ((l : ℚ) == r) && (l == f64_as_i64 r)
  | .F l, .I r => (l == (r : ℚ)) && (f64_as_i64 l == r)

/-- The transcendental `f64` operations used by `eval_beat` (`sin`, `cos`,
`tan`, `powf`), which have no exact rational counterpart: taken as an
explicit parameter, with every theorem holding for every choice. -/
structure FloatFns where
  sinF : ℚ → ℚ
  cosF : ℚ → ℚ
  tanF : ℚ → ℚ
  powF : ℚ → ℚ → ℚ

/-- The seven per-evaluation inputs of `eval_beat` (already converted to
`Val`, as the source does on entry). -/
structure Inputs where
  t : Val
  mouse_x : Val
  mouse_y : Val
  screen_x : Val
  screen_y : Val
  key_x : Val
  key_y : Val

/-- Positive (non-negative) modulo as computed by the source:
`((index % size) + size) % size` with Rust's truncated `%`. -/
def posMod (a n : ℤ) : ℤ :=
  (a.tmod n + n).tmod n

/-- The low 64 bits of an integer, as the two's-complement bit pattern of
the corresponding `i64`. -/
def i64_bits (a : ℤ) : ℕ :=
  (a % 2 ^ 64).toNat

/-- Bitwise AND on `i64` via the two's-complement bit patterns. -/
def i64_land (a b : ℤ) : ℤ :=
  wrap64 ((Nat.land (i64_bits a) (i64_bits b) : ℕ) : ℤ)

/-- Bitwise OR on `i64`. -/
def i64_lor (a b : ℤ) : ℤ :=
  wrap64 ((Nat.lor (i64_bits a) (i64_bits b) : ℕ) : ℤ)

/-- Bitwise XOR on `i64`. -/
def i64_lxor (a b : ℤ) : ℤ :=
  wrap64 ((Nat.xor (i64_bits a) (i64_bits b) : ℕ) : ℤ)

/-- The binary integer operations of `eval_beat` (`src/bytebeat.rs:391`):
wrapping arithmetic; `Div`/`Mod` yield 0 on a zero divisor; shift amounts
are normalized into `[0, 64)` by positive modulo; `Shr` is the arithmetic
right shift (floor division by the power of two). -/
def biOp : BiType → ℤ → ℤ → ℤ
  | .Add, a, b => wrap64 (a + b)
  | .Sub, a, b => wrap64 (a - b)
  | .Mul, a, b => wrap64 (a * b)
  | .Div, a, b => if b = 0 then 0 else wrap64 (a.tdiv b)
  | .Mod, a, b => if b = 0 then 0 else wrap64 (a.tmod b)
  | .Shl, a, b => wrap64 (a * 2 ^ (posMod b 64).toNat)
  | .Shr, a, b => a.fdiv (2 ^ (posMod b 64).toNat)
  | .And, a, b => i64_land a b
  | .Orr, a, b => i64_lor a b
  | .Xor, a, b => i64_lxor a b

/-- `fmod` on the rational model: `a - b * trunc(a / b)`, the semantics of
Rust's `%` on `f64` for finite values. -/
def fmodQ (a b : ℚ) : ℚ :=
  a - b * (ratTrunc (a / b) : ℚ)

/-- The binary float operations of `eval_beat`: `DivF`/`ModF` yield 0.0 on
a zero divisor. -/
def bfOp (fns : FloatFns) : BiFloatType → ℚ → ℚ → ℚ
  | .Pow, a, b => fns.powF a b
  | .AddF, a, b => a + b
  | .SubF, a, b => a - b
  | .MulF, a, b => a * b
  | .DivF, a, b => if b = 0 then 0 else a / b
  | .ModF, a, b => if b = 0 then 0 else fmodQ a b

/-- The trig operations of `eval_beat`, dispatched to the `FloatFns`
parameter. -/
def trigOp (fns : FloatFns) : TrigType → ℚ → ℚ
  | .Sin => fns.sinF
  | .Cos => fns.cosF
  | .Tan => fns.tanF

/-- The comparison operations of `eval_beat`: `Lt`/`Gt`/`Leq`/`Geq` via
`partial_cmp` (`valCmp`), `Eq`/`Neq` via `PartialEq` (`valEq`), exactly as
Rust's comparison operators dispatch. -/
def compOp : CompType → Val → Val → Bool
  | .Lt, a, b => valCmp a b == .lt
  | .Gt, a, b => valCmp a b == .gt
  | .Leq, a, b => valCmp a b != .gt
  | .Geq, a, b => valCmp a b != .lt
  | .Eq, a, b => valEq a b
  | .Neq, a, b => !(valEq a b)

/-- The value a `Var` command pushes. -/
def varVal (inp : Inputs) : VarType → Val
  | .Frame => inp.t
  | .MouseX => inp.mouse_x
  | .MouseY => inp.mouse_y
  | .ScreenX => inp.screen_x
  | .ScreenY => inp.screen_y
  | .KeyboardX => inp.key_x
  | .KeyboardY => inp.key_y

/-- The value a `Literal` command pushes. -/
def litVal : LiteralType → Val
  | .NumF y => .F y
  | .NumI y => .I y
  | .Hex y => .I y

/-- One iteration of the command loop of `eval_beat`
(`src/bytebeat.rs:379`).  The stack is a `List Val` with the TOP at the
HEAD, so `b :: a :: rest` means `b` was pushed last: the `stack_op!` macro
pops `b` first and binds it to the second-declared operand, matching the
source's reverse-order popping.  The `_ => stack` fallbacks model stack
underflows, where the source would panic on `pop().unwrap()`; they are
unreachable for compiled programs.  `Arr`: pop the index, split the top
`size` values off (in the list model: `rest.take size`, whose reverse is
the source's bottom-to-top `vec`), and push the element selected by the
positive modulo of the index. -/
def evalCmd (fns : FloatFns) (inp : Inputs) (stack : List Val) : Cmd → List Val
  | .Var v => varVal inp v :: stack
  | .Literal l => litVal l :: stack
  | .Bi op =>
    match stack with
    | b :: a :: rest => Val.I (biOp op a.toI b.toI) :: rest
    | _ => stack
  | .Trig op =>
    match stack with
    | a :: rest => Val.F (trigOp fns op a.toF) :: rest
    | _ => stack
  | .BiFloat op =>
    match stack with
    | b :: a :: rest => Val.F (bfOp fns op a.toF b.toF) :: rest
    | _ => stack
  | .Comp op =>
    match stack with
    | b :: a :: rest => Val.ofB (compOp op a b) :: rest
    | _ => stack
  | .Cond =>
    match stack with
    | cond :: b :: a :: rest => (if cond.toB then a else b) :: rest
    | _ => stack
  | .Arr 0 => Val.I 0 :: stack
  | .Arr (size + 1) =>
    match stack with
    | idx :: rest =>
      (rest.take (size + 1)).reverse.getD (posMod idx.toI ((size : ℤ) + 1)).toNat (Val.I 0)
        :: rest.drop (size + 1)
    | [] => stack
  | .Meta _ _ => stack
  | .Comment _ => stack

/-- The stack left by running every command of `cmds` from the cleared
scratch stack (`stack.clear()` at the top of `eval_beat`). -/
def runCmds (fns : FloatFns) (inp : Inputs) (cmds : List Cmd) : List Val :=
  cmds.foldl (evalCmd fns inp) []

/-- `eval_beat` from `src/bytebeat.rs:351`: run the program and pop the
result.  The final `pop().unwrap()` panics on an empty stack; compilation
guarantees nonemptiness, and the model returns `Val.I 0` in that
unreachable case. -/
def eval_beat (fns : FloatFns) (inp : Inputs) (p : Program) : Val :=
  (runCmds fns inp p.cmds).headD (Val.I 0)

/-- Whether a command is `Arr 0` (the one opcode whose runtime stack
effect, `+1`, differs from its static `stack_change`, `0`). -/
def isArr0 : Cmd → Bool
  | .Arr 0 => true
  | _ => false

/-- The number of `Arr 0` commands in a list. -/
def countArr0 (cmds : List Cmd) : ℕ :=
  (cmds.filter isArr0).length

/-- The per-family replacement draws of `mutate` (`src/bytebeat.rs:666`):
position `i`'s replacement, by family.  The types enforce the source's
family-preserving substitution. -/
structure MutOracle where
  varO : ℕ → VarType
  litO : ℕ → LiteralType
  biO : ℕ → BiType
  trigO : ℕ → TrigType
  biFloatO : ℕ → BiFloatType
  compO : ℕ → CompType

/-- The replacement `mutate` builds for the command at position `i`, when
that position's mutation draw fired.  `Cond`, `Arr`, `Meta` and `Comment`
hit `unimplemented!()` in the source — a panic, modelled as `none`. -/
def mutateCmd (o : MutOracle) (i : ℕ) : Cmd → Option Cmd
  | .Var _ => some (.Var (o.varO i))
  | .Literal _ => some (.Literal (o.litO i))
  | .Bi _ => some (.Bi (o.biO i))
  | .Trig _ => some (.Trig (o.trigO i))
  | .BiFloat _ => some (.BiFloat (o.biFloatO i))
  | .Comp _ => some (.Comp (o.compO i))
  | .Cond => none
  | .Arr _ => none
  | .Meta _ _ => none
  | .Comment _ => none

/-- The loop of `mutate` (`src/bytebeat.rs:669`): `sel i` is whether the
mutation draw fired at position `i`; `none` propagates a panic. -/
def mutateGo (sel : ℕ → Bool) (o : MutOracle) : ℕ → List Cmd → Option (List Cmd)
  | _, [] => some []
  | i, c :: rest =>
    match (if sel i then mutateCmd o i c else some c), mutateGo sel o (i + 1) rest with
    | some c2, some rest2 => some (c2 :: rest2)
    | _, _ => none

/-- `mutate` from `src/bytebeat.rs`, as the mutated command list (`none` =
the source panicked; on success the source recompiles, which the mutation
theorem settles). -/
def mutate (cmds : List Cmd) (sel : ℕ → Bool) (o : MutOracle) : Option (List Cmd) :=
  mutateGo sel o 0 cmds

/-- Whether a command belongs to one of the six families `mutate` can
replace (everything except `Cond`, `Arr`, `Meta`, `Comment`). -/
def inMutationFamily : Cmd → Bool
  | .Var _ => true
  | .Literal _ => true
  | .Bi _ => true
  | .Trig _ => true
  | .BiFloat _ => true
  | .Comp _ => true
  | _ => false

/-- A concrete choice of transcendental functions, used to instantiate
closed concrete-program statements (none of them ever applies one). -/
def defaultFns : FloatFns :=
  ⟨fun _ => 0, fun _ => 0, fun _ => 0, fun _ _ => 0⟩

/-- All-zero evaluation inputs. -/
def zeroInputs : Inputs :=
  ⟨.I 0, .I 0, .I 0, .I 0, .I 0, .I 0, .I 0⟩

/-- Evaluation inputs with frame counter `t = n` and all others zero. -/
def inputsT (n : ℤ) : Inputs :=
  ⟨.I n, .I 0, .I 0, .I 0, .I 0, .I 0, .I 0⟩

/-- The command sequence of the token string `t 2 %` (per `parse_beat`'s
token table: `t` ↦ `Var Frame`, a decimal integer ↦ `Literal NumI`, `%` ↦
`Bi Mod`). -/
def csTMod : List Cmd :=
  [.Var .Frame, .Literal (.NumI 2), .Bi .Mod]

/-- The command sequence of the token string `5 0 /`. -/
def csDivZ : List Cmd :=
  [.Literal (.NumI 5), .Literal (.NumI 0), .Bi .Div]

/-- The command sequence of the token string `5.0 0.0 /.`. -/
def csDivFZ : List Cmd :=
  [.Literal (.NumF 5), .Literal (.NumF 0), .BiFloat .DivF]

/-- The command sequence of the token string `1 2 3 i [3` (the array-index
scenario with the index literal `i`). -/
def csArr (i : ℤ) : List Cmd :=
  [.Literal (.NumI 1), .Literal (.NumI 2), .Literal (.NumI 3), .Literal (.NumI i), .Arr 3]

/-- Three integer literals: a program `compile` accepts whose final static
depth is 3, not 1. -/
def csThree : List Cmd :=
  [.Literal (.NumI 1), .Literal (.NumI 2), .Literal (.NumI 3)]

/-- A compilable program containing `Cond` (tokens `1 2 3 ?`). -/
def csCond : List Cmd :=
  [.Literal (.NumI 1), .Literal (.NumI 2), .Literal (.NumI 3), .Cond]

/-- The mutation-draw outcome in which every position mutates (the
guaranteed outcome at `mutation_chance = 1.0`, since the sampled value is
always `< 1.0`). -/
def alwaysMutate : ℕ → Bool := fun _ => true

/-- An arbitrary concrete `MutOracle`, for closed statements. -/
def defaultOracle : MutOracle :=
  ⟨fun _ => .Frame, fun _ => .NumI 0, fun _ => .Add, fun _ => .Sin, fun _ => .Pow, fun _ => .Lt⟩

end Bytebeat

/-- Decidable equality of `Except` results (for evaluating `compile` at
concrete inputs). -/
instance {ε α : Type} [DecidableEq ε] [DecidableEq α] : DecidableEq (Except ε α) := fun x y =>
  match x, y with
  | .ok a, .ok b => if h : a = b then .isTrue (by rw [h]) else .isFalse (by simp [h])
  | .error e, .error f => if h : e = f then .isTrue (by rw [h]) else .isFalse (by simp [h])
  | .ok _, .error _ => .isFalse (by simp)
  | .error _, .ok _ => .isFalse (by simp)

namespace BF

/-- The brace balance of the empty prefix is zero. -/
lemma braceBalance_nil (i : ℕ) : braceBalance [] i = 0 := by
  simp [braceBalance]

/-- The brace balance of the length-0 prefix is zero. -/
lemma braceBalance_zero (p : List BFChar) : braceBalance p 0 = 0 := rfl

/-- Unfolding the brace balance across the head instruction. -/
lemma braceBalance_cons (c : BFChar) (rest : List BFChar) (j : ℕ) :
    braceBalance (c :: rest) (j + 1) = braceDelta c + braceBalance rest j := by
  simp [braceBalance, List.take_succ_cons]

/-- Characterization of the validator loop: starting from a nonnegative
open-brace count `n`, it succeeds iff every prefix keeps `n` plus the
prefix balance nonnegative and the total lands exactly on zero. -/
lemma isValidGo_iff (program : List BFChar) : ∀ (n : ℤ), 0 ≤ n →
    (isValidGo program n = true ↔
      (∀ i, 0 ≤ n + braceBalance program i) ∧
        n + braceBalance program program.length = 0) := by
  induction program with
  | nil =>
    intro n hn
    simp only [isValidGo, beq_iff_eq, List.length_nil, braceBalance_nil, add_zero]
    constructor
    · rintro rfl
      exact ⟨fun _ => le_refl 0, rfl⟩
    · rintro ⟨-, h⟩
      exact h
  | cons c rest ih =>
    intro n hn
    rw [isValidGo]
    by_cases h : n + braceDelta c < 0
    · rw [if_pos h]
      simp only [Bool.false_eq_true, false_iff, not_and]
      intro h1
      have h2 := h1 1
      rw [braceBalance_cons, braceBalance_zero] at h2
      omega
    · rw [if_neg h]
      push_neg at h
      rw [ih (n + braceDelta c) h]
      constructor
      · rintro ⟨h1, h2⟩
        refine ⟨fun i => ?_, ?_⟩
        · match i with
          | 0 => simpa [braceBalance_zero] using hn
          | j + 1 =>
            have := h1 j
            rw [braceBalance_cons]
            linarith
        · rw [List.length_cons, braceBalance_cons]
          linarith
      · rintro ⟨h1, h2⟩
        refine ⟨fun j => ?_, ?_⟩
        · have := h1 (j + 1)
          rw [braceBalance_cons] at this
          linarith
        · rw [List.length_cons, braceBalance_cons] at h2
          linarith

/-- Each serialized instruction parses back to itself. -/
lemma charToInstr_toChar (c : BFChar) : charToInstr (toChar c) = some c := by
  cases c <;> rfl

/-- Parsing undoes serialization at the instruction-list level. -/
lemma parseChars_to_string (instrs : List BFChar) :
    parseChars (to_string instrs) = instrs := by
  induction instrs with
  | nil => rfl
  | cons c rest ih =>
    simpa [to_string, parseChars, List.filterMap_cons, charToInstr_toChar c]
      using ih

/-- `wrapping_add` lands strictly below a positive modulus. -/
lemma wrapping_add_lt (a : ℕ) (b : ℤ) (m : ℕ) (hm : 0 < m) :
    wrapping_add a b m < m := by
  have hm' : (0 : ℤ) < (m : ℤ) := by exact_mod_cast hm
  rw [wrapping_add]
  split
  · have h1 := Int.emod_nonneg ((a : ℤ) + b + m) (ne_of_gt hm')
    have h2 := Int.emod_lt_of_pos ((a : ℤ) + b + m) hm'
    omega
  · have h1 := Int.emod_nonneg ((a : ℤ) + b) (ne_of_gt hm')
    have h2 := Int.emod_lt_of_pos ((a : ℤ) + b) hm'
    omega

/-- One `step` preserves the pointer invariant, for every program, state
and input. -/
lemma step_PtrInv (p : Program) (c : BFState × List ℤ) (h : PtrInv c.1) :
    PtrInv (step p c).1 := by
  obtain ⟨s, input⟩ := c
  obtain ⟨h1, h2⟩ := h
  dsimp only at h1 h2
  rw [step]
  dsimp only
  cases hfetch : p.instrs.get? s.program_pointer with
  | none => exact ⟨h1, h2⟩
  | some instr =>
    cases instr with
    | Plus =>
      refine ⟨by simpa using h1, ?_⟩
      intro m2 hm2
      simpa using h2 m2 (by simpa using hm2)
    | Minus =>
      refine ⟨by simpa using h1, ?_⟩
      intro m2 hm2
      simpa using h2 m2 (by simpa using hm2)
    | Left =>
      cases hb : s.memory_behavior with
      | Wrapping m =>
        obtain ⟨hm, hml⟩ := h2 m hb
        dsimp only [PtrInv]
        refine ⟨lt_of_lt_of_le (wrapping_add_lt _ _ _ hm) hml, ?_⟩
        intro m2 hm2
        cases hm2
        exact ⟨hm, hml⟩
      | InfiniteRightwards =>
        dsimp only [PtrInv]
        refine ⟨lt_of_le_of_lt (Nat.sub_le _ _) h1, ?_⟩
        intro m2 hm2
        cases hm2
    | Right =>
      cases hb : s.memory_behavior with
      | Wrapping m =>
        obtain ⟨hm, hml⟩ := h2 m hb
        dsimp only [PtrInv]
        refine ⟨lt_of_lt_of_le (wrapping_add_lt _ _ _ hm) hml, ?_⟩
        intro m2 hm2
        cases hm2
        exact ⟨hm, hml⟩
      | InfiniteRightwards =>
        dsimp only [PtrInv]
        refine ⟨?_, ?_⟩
        · split
          · simp only [List.length_append, List.length_replicate, EXTEND_MEMORY_AMOUNT]
            omega
          · omega
        · intro m2 hm2
          cases hm2
    | StartLoop =>
      dsimp only [PtrInv]
      split <;> exact ⟨h1, fun m2 hm2 => h2 m2 hm2⟩
    | EndLoop =>
      dsimp only [PtrInv]
      split <;> exact ⟨h1, fun m2 hm2 => h2 m2 hm2⟩
    | Input =>
      cases input with
      | nil =>
        refine ⟨by simpa using h1, ?_⟩
        intro m2 hm2
        simpa using h2 m2 (by simpa using hm2)
      | cons x rest =>
        refine ⟨by simpa using h1, ?_⟩
        intro m2 hm2
        simpa using h2 m2 (by simpa using hm2)
    | Output => exact ⟨h1, h2⟩

/-- The fresh state satisfies the pointer invariant. -/
lemma PtrInv_new : PtrInv BFState.new := by
  refine ⟨?_, fun m hm => ?_⟩
  · show (0 : ℕ) < (List.replicate INITAL_MEMORY (0 : ℤ)).length
    rw [List.length_replicate]
    norm_num [INITAL_MEMORY]
  · cases hm
    refine ⟨by norm_num [INITAL_MEMORY], ?_⟩
    show INITAL_MEMORY ≤ (List.replicate INITAL_MEMORY (0 : ℤ)).length
    rw [List.length_replicate]

/-- The pointer invariant holds after any number of steps from the fresh
state. -/
lemma stepN_PtrInv (p : Program) (input : List ℤ) (n : ℕ) :
    PtrInv (stepN p (BFState.new, input) n).1 := by
  induction n with
  | zero => exact PtrInv_new
  | succ n ih => exact step_PtrInv p _ ih

end BF

/-- C5: the CT-Lang validator `is_valid(P)` returns true iff, counting +1
for each `LoopStart` and -1 for each `LoopEnd` left to right, the running
brace balance is never negative on any prefix of `P` and is exactly zero
over the full program. -/
theorem C5_is_valid_iff (program : List BF.BFChar) :
    BF.is_valid program = true ↔
      (∀ i, 0 ≤ BF.braceBalance program i) ∧
        BF.braceBalance program program.length = 0 := by
  have h := BF.isValidGo_iff program 0 le_rfl
  rw [BF.is_valid]
  simpa using h

/-- C9: CT-Lang serialization round-trips: for every well-formed program
over the 8 primitive instructions, `from_string(to_string(instrs)).instrs`
reproduces the instruction sequence exactly. -/
theorem C9_serialization_roundtrip (instrs : List BF.BFChar)
    (h : BF.is_valid instrs = true) :
    (BF.from_string (BF.to_string instrs)).instrs = instrs := by
  rw [BF.from_string, BF.Program.new]
  exact BF.parseChars_to_string instrs

/-- C9 witness: the round-trip theorem applied to the valid program
`+[-]`. -/
theorem C9_serialization_roundtrip_witness :
    (BF.from_string (BF.to_string
        [BF.BFChar.Plus, BF.BFChar.StartLoop, BF.BFChar.Minus, BF.BFChar.EndLoop])).instrs =
      [BF.BFChar.Plus, BF.BFChar.StartLoop, BF.BFChar.Minus, BF.BFChar.EndLoop] :=
  C9_serialization_roundtrip
    [BF.BFChar.Plus, BF.BFChar.StartLoop, BF.BFChar.Minus, BF.BFChar.EndLoop] (by decide)

/-- C4: evaluation of the code at the failing input `[+]` (a valid
program whose `LoopStart` at index 0 has its matching `LoopEnd` at index
2), from the fresh zeroed state.  The claim's loop-jump contract says a
zero-cell `LoopStart` jumps to its matching `LoopEnd` and resumes at
target+1, which here would halt execution at program counter 3 with cell 0
still 0.  The code instead leaves the jump table's `StartLoop` entry at
its never-updated placeholder 0 (`loop_dict` inserts `(i, 0)` and never
overwrites it), so the first step jumps to 0 and resumes at 1, and the
second step executes the loop body `+`: after two steps the program
counter is 2 and cell 0 holds 1. -/
theorem C4_startloop_jump_placeholder :
    BF.is_valid [BF.BFChar.StartLoop, BF.BFChar.Plus, BF.BFChar.EndLoop] = true
    ∧ (BF.Program.new [BF.BFChar.StartLoop, BF.BFChar.Plus, BF.BFChar.EndLoop]).matchingLoop 0 =
        some 0
    ∧ (BF.stepN (BF.Program.new [BF.BFChar.StartLoop, BF.BFChar.Plus, BF.BFChar.EndLoop])
        (BF.BFState.new, []) 1).1.program_pointer = 1
    ∧ (BF.stepN (BF.Program.new [BF.BFChar.StartLoop, BF.BFChar.Plus, BF.BFChar.EndLoop])
        (BF.BFState.new, []) 2).1.program_pointer = 2
    ∧ (BF.stepN (BF.Program.new [BF.BFChar.StartLoop, BF.BFChar.Plus, BF.BFChar.EndLoop])
        (BF.BFState.new, []) 2).1.memory.getD 0 0 = 1 := by
  refine ⟨by decide, by decide, by decide, by decide, by decide⟩

/-- C10: from `BFState::new()` (256 zeroed cells, `Wrapping(256)`), after
any number of steps of any valid program with any input, the memory
pointer stays strictly below the memory length, so every tape read and
write of `step` is in bounds. -/
theorem C10_memory_pointer_in_bounds (p : BF.Program) (input : List ℤ) (n : ℕ)
    (h : BF.is_valid p.instrs = true) :
    (BF.stepN p (BF.BFState.new, input) n).1.memory_pointer <
      (BF.stepN p (BF.BFState.new, input) n).1.memory.length :=
  (BF.stepN_PtrInv p input n).1

/-- C10 witness: the in-bounds theorem applied to the valid program `+.`
after three steps. -/
theorem C10_memory_pointer_in_bounds_witness :
    (BF.stepN (BF.Program.new [BF.BFChar.Plus, BF.BFChar.Output]) (BF.BFState.new, []) 3).1.memory_pointer <
      (BF.stepN (BF.Program.new [BF.BFChar.Plus, BF.BFChar.Output]) (BF.BFState.new, []) 3).1.memory.length :=
  C10_memory_pointer_in_bounds (BF.Program.new [BF.BFChar.Plus, BF.BFChar.Output]) [] 3 (by decide)

namespace Bytebeat

/-- The running depth before command 0 is zero. -/
lemma runDepth_zero (cmds : List Cmd) : runDepth cmds 0 = 0 := rfl

/-- Unfolding the running depth across the head command. -/
lemma runDepth_cons (c : Cmd) (rest : List Cmd) (j : ℕ) :
    runDepth (c :: rest) (j + 1) = stack_change c + runDepth rest j := by
  simp [runDepth, List.take_succ_cons]

/-- The command at index 0 of a cons. -/
lemma cmdAt_cons_zero (c : Cmd) (rest : List Cmd) : cmdAt (c :: rest) 0 = c := rfl

/-- The command at a successor index of a cons. -/
lemma cmdAt_cons_succ (c : Cmd) (rest : List Cmd) (j : ℕ) :
    cmdAt (c :: rest) (j + 1) = cmdAt rest j := rfl

/-- The net effect is the running depth at the program's length. -/
lemma depthSum_eq_runDepth (cmds : List Cmd) :
    depthSum cmds = runDepth cmds cmds.length := by
  rw [depthSum, runDepth, List.take_length]

/-- Unfolding the net effect across the head command. -/
lemma depthSum_cons (c : Cmd) (rest : List Cmd) :
    depthSum (c :: rest) = stack_change c + depthSum rest := by
  simp [depthSum]

/-- Stepping the running depth across one in-range index. -/
lemma runDepth_succ : ∀ (cmds : List Cmd) (j : ℕ), j < cmds.length →
    runDepth cmds (j + 1) = runDepth cmds j + stack_change (cmdAt cmds j)
  | [], j, hj => absurd hj (by simp)
  | c :: rest, 0, _ => by
    rw [runDepth_cons, runDepth_zero, runDepth_zero, cmdAt_cons_zero]
    ring
  | c :: rest, j + 1, hj => by
    rw [runDepth_cons, runDepth_cons, cmdAt_cons_succ,
      runDepth_succ rest j (by simpa using hj)]
    ring

/-- Characterization of the `compile` scan: it reports `(i, d)` exactly
when `i` is the first index (relative to the start index `i0`, with
accumulated depth `d0`) whose check fires, and `d` is the running depth
there. -/
lemma findErr_some_iff (cmds : List Cmd) : ∀ (d0 : ℤ) (i0 i : ℕ) (d : ℤ),
    (findErr cmds d0 i0 = some (i, d) ↔
      ∃ k, k < cmds.length ∧ i = i0 + k ∧ d = d0 + runDepth cmds k ∧
        d0 + runDepth cmds k + stack_change (cmdAt cmds k) ≤ 0 ∧
        ∀ j < k, 0 < d0 + runDepth cmds j + stack_change (cmdAt cmds j)) := by
  induction cmds with
  | nil =>
    intro d0 i0 i d
    simp [findErr]
  | cons c rest ih =>
    intro d0 i0 i d
    rw [findErr]
    by_cases h : d0 + stack_change c ≤ 0
    · rw [if_pos h]
      constructor
      · intro he
        simp only [Option.some.injEq, Prod.mk.injEq] at he
        obtain ⟨rfl, rfl⟩ := he
        exact ⟨0, by simp, by simp, by simp [runDepth_zero],
          by rw [runDepth_zero, cmdAt_cons_zero]; omega,
          fun j hj => absurd hj (Nat.not_lt_zero j)⟩
      · rintro ⟨k, hk, hik, hd, hcond, hall⟩
        match k with
        | 0 =>
          rw [runDepth_zero] at hd
          simp only [Option.some.injEq, Prod.mk.injEq]
          omega
        | k + 1 =>
          have h0 := hall 0 (Nat.succ_pos k)
          rw [runDepth_zero, cmdAt_cons_zero] at h0
          omega
    · rw [if_neg h]
      push_neg at h
      rw [ih (d0 + stack_change c) (i0 + 1) i d]
      constructor
      · rintro ⟨k, hk, hik, hd, hcond, hall⟩
        refine ⟨k + 1, by simpa using hk, by omega, ?_, ?_, ?_⟩
        · rw [runDepth_cons]
          omega
        · rw [runDepth_cons, cmdAt_cons_succ]
          omega
        · intro j hj
          match j with
          | 0 =>
            rw [runDepth_zero, cmdAt_cons_zero]
            omega
          | j + 1 =>
            rw [runDepth_cons, cmdAt_cons_succ]
            have := hall j (by omega)
            omega
      · rintro ⟨k, hk, hik, hd, hcond, hall⟩
        match k with
        | 0 =>
          rw [runDepth_zero, cmdAt_cons_zero] at hcond
          omega
        | k + 1 =>
          rw [runDepth_cons] at hd
          rw [runDepth_cons, cmdAt_cons_succ] at hcond
          refine ⟨k, by simpa using hk, by omega, by omega, by omega, ?_⟩
          intro j hj
          have := hall (j + 1) (by omega)
          rw [runDepth_cons, cmdAt_cons_succ] at this
          omega

/-- The `compile` scan passes (returns no error) iff every per-command
check holds. -/
lemma findErr_none_iff (cmds : List Cmd) : ∀ (d0 : ℤ) (i0 : ℕ),
    (findErr cmds d0 i0 = none ↔
      ∀ j < cmds.length, 0 < d0 + runDepth cmds j + stack_change (cmdAt cmds j)) := by
  induction cmds with
  | nil =>
    intro d0 i0
    simp [findErr]
  | cons c rest ih =>
    intro d0 i0
    rw [findErr]
    by_cases h : d0 + stack_change c ≤ 0
    · rw [if_pos h]
      constructor
      · intro he
        exact absurd he (by simp)
      · intro hall
        exfalso
        have h0 := hall 0 (by simp)
        rw [runDepth_zero, cmdAt_cons_zero] at h0
        omega
    · rw [if_neg h]
      push_neg at h
      rw [ih (d0 + stack_change c) (i0 + 1)]
      constructor
      · intro hall j hj
        match j with
        | 0 =>
          rw [runDepth_zero, cmdAt_cons_zero]
          omega
        | j + 1 =>
          rw [runDepth_cons, cmdAt_cons_succ]
          have := hall j (by simpa using hj)
          omega
      · intro hall j hj
        have := hall (j + 1) (by simpa using Nat.succ_lt_succ hj)
        rw [runDepth_cons, cmdAt_cons_succ] at this
        omega

end Bytebeat

namespace Bytebeat

/-- `compile` reports `UnderflowedStack i d` exactly when `i` is the first
index whose precondition `runDepth + stack_change > 0` fails, with `d` the
running depth just before it. -/
lemma compile_underflow_iff (cmds : List Cmd) (i : ℕ) (d : ℤ) :
    compile cmds = .error (.UnderflowedStack i d) ↔
      (i < cmds.length ∧ d = runDepth cmds i ∧
        d + stack_change (cmdAt cmds i) ≤ 0 ∧
        ∀ j < i, 0 < runDepth cmds j + stack_change (cmdAt cmds j)) := by
  have h1 : compile cmds = .error (.UnderflowedStack i d) ↔
      findErr cmds 0 0 = some (i, d) := by
    rw [compile]
    cases hf : findErr cmds 0 0 with
    | some pair =>
      obtain ⟨i2, d2⟩ := pair
      simp
    | none =>
      by_cases hz : depthSum cmds = 0
      · rw [if_pos hz]
        simp
      · rw [if_neg hz]
        simp
  rw [h1, findErr_some_iff]
  constructor
  · rintro ⟨k, hk, hik, hd, hcond, hall⟩
    have hki : k = i := by omega
    subst hki
    exact ⟨hk, by omega, by omega, fun j hj => by have := hall j hj; omega⟩
  · rintro ⟨hilen, hd, hcond, hall⟩
    exact ⟨i, hilen, by omega, by omega, by omega,
      fun j hj => by have := hall j hj; omega⟩

/-- `compile` reports `EmptyProgram` exactly when every per-command check
passes and the final depth is zero. -/
lemma compile_empty_iff (cmds : List Cmd) :
    compile cmds = .error .EmptyProgram ↔
      ((∀ j < cmds.length, 0 < runDepth cmds j + stack_change (cmdAt cmds j)) ∧
        depthSum cmds = 0) := by
  rw [compile]
  cases hf : findErr cmds 0 0 with
  | some pair =>
    obtain ⟨i2, d2⟩ := pair
    apply iff_of_false
    · simp
    · rintro ⟨hall, -⟩
      have hnone : findErr cmds 0 0 = none :=
        (findErr_none_iff cmds 0 0).2 (fun j hj => by have := hall j hj; omega)
      rw [hf] at hnone
      exact Option.noConfusion hnone
  | none =>
    have hall := (findErr_none_iff cmds 0 0).1 hf
    by_cases hz : depthSum cmds = 0
    · rw [if_pos hz]
      exact iff_of_true rfl ⟨fun j hj => by have := hall j hj; omega, hz⟩
    · rw [if_neg hz]
      apply iff_of_false
      · simp
      · rintro ⟨-, h⟩
        exact hz h

/-- A nonempty command list all of whose checks pass nets at least 1. -/
lemma depthSum_pos_of_pass (cmds : List Cmd) (hne : cmds ≠ [])
    (hall : ∀ j < cmds.length, 0 < runDepth cmds j + stack_change (cmdAt cmds j)) :
    1 ≤ depthSum cmds := by
  obtain ⟨l, hl⟩ : ∃ l, cmds.length = l + 1 := by
    cases cmds with
    | nil => exact absurd rfl hne
    | cons c rest => exact ⟨rest.length, by simp⟩
  have hlast := hall l (by omega)
  have h2 : depthSum cmds = runDepth cmds (l + 1) := by
    rw [depthSum_eq_runDepth, hl]
  rw [h2, runDepth_succ cmds l (by omega)]
  omega

/-- `compile` accepts exactly the command lists whose checks all pass and
whose net effect is at least 1. -/
lemma compile_ok_iff (cmds : List Cmd) :
    (∃ p, compile cmds = .ok p) ↔
      ((∀ j < cmds.length, 0 < runDepth cmds j + stack_change (cmdAt cmds j)) ∧
        1 ≤ depthSum cmds) := by
  constructor
  · rintro ⟨p, hp⟩
    cases hf : findErr cmds 0 0 with
    | some pair =>
      obtain ⟨i2, d2⟩ := pair
      rw [compile, hf] at hp
      exact absurd hp (by simp)
    | none =>
      rw [compile, hf] at hp
      by_cases hz : depthSum cmds = 0
      · rw [if_pos hz] at hp
        exact absurd hp (by simp)
      · have hall := (findErr_none_iff cmds 0 0).1 hf
        have hall2 : ∀ j < cmds.length,
            0 < runDepth cmds j + stack_change (cmdAt cmds j) :=
          fun j hj => by have := hall j hj; omega
        have hne : cmds ≠ [] := by
          rintro rfl
          exact hz rfl
        exact ⟨hall2, depthSum_pos_of_pass cmds hne hall2⟩
  · rintro ⟨hall, hpos⟩
    have hf : findErr cmds 0 0 = none :=
      (findErr_none_iff cmds 0 0).2 (fun j hj => by have := hall j hj; omega)
    refine ⟨⟨cmds, collectMeta cmds⟩, ?_⟩
    rw [compile, hf, if_neg (by omega)]

end Bytebeat

/-- C1 (amended): Stack-Beat `compile(cmds)` fails in exactly the
following way and no other: it returns `UnderflowedStack{index,
stack_size}` at the first command whose precondition
`current_depth + effect > 0` is violated (`stack_size` being the running
depth before that command's effect), and otherwise, having passed every
per-command check, it returns `EmptyProgram` if and only if the final
depth is exactly 0.  In particular `compile [Bi Add]` fails with
`UnderflowedStack{index: 0, stack_size: 0}` — and so does
`compile [Comment "hi"]`: a comment has stack effect 0, so at depth 0 it
already violates the `> 0` precondition and is reported as an underflow at
index 0, not as `EmptyProgram` (which only arises for a command list with
no commands at all). -/
theorem C1_compile_failure_modes :
    (∀ (cmds : List Bytebeat.Cmd) (i : ℕ) (d : ℤ),
      Bytebeat.compile cmds = .error (.UnderflowedStack i d) ↔
        (i < cmds.length ∧ d = Bytebeat.runDepth cmds i ∧
          d + Bytebeat.stack_change (Bytebeat.cmdAt cmds i) ≤ 0 ∧
          ∀ j < i, 0 < Bytebeat.runDepth cmds j +
            Bytebeat.stack_change (Bytebeat.cmdAt cmds j)))
    ∧ (∀ cmds : List Bytebeat.Cmd,
      Bytebeat.compile cmds = .error .EmptyProgram ↔
        ((∀ j < cmds.length, 0 < Bytebeat.runDepth cmds j +
            Bytebeat.stack_change (Bytebeat.cmdAt cmds j)) ∧
          Bytebeat.depthSum cmds = 0))
    ∧ Bytebeat.compile [Bytebeat.Cmd.Bi .Add] = .error (.UnderflowedStack 0 0)
    ∧ Bytebeat.compile [Bytebeat.Cmd.Comment "hi"] = .error (.UnderflowedStack 0 0) :=
  ⟨Bytebeat.compile_underflow_iff, Bytebeat.compile_empty_iff, by decide, by decide⟩

/-- C1 counterexample: the claim asserts that a program consisting only of
comment/metadata commands, e.g. `[Comment "hi"]`, fails with
`EmptyProgram`; the code instead reports `UnderflowedStack{index: 0,
stack_size: 0}` for it (the `stack_size + stack_change ≤ 0` check fires on
the zero-effect comment at depth 0 before the final-depth check is ever
reached). -/
theorem C1_comment_only_counterexample :
    Bytebeat.compile [Bytebeat.Cmd.Comment "hi"] =
      .error (.UnderflowedStack 0 0)
    ∧ Bytebeat.compile [Bytebeat.Cmd.Comment "hi"] ≠ .error .EmptyProgram := by
  exact ⟨by decide, by decide⟩

namespace Bytebeat

/-- Unfolding `countArr0` across the head command. -/
lemma countArr0_cons (c : Cmd) (rest : List Cmd) :
    countArr0 (c :: rest) = (if isArr0 c then 1 else 0) + countArr0 rest := by
  rw [countArr0, countArr0, List.filter_cons]
  by_cases h : isArr0 c
  · simp [h, Nat.add_comm]
  · simp [h]

/-- The runtime stack-length effect of one command: whenever the static
precondition `1 ≤ length + stack_change` holds (which is what `compile`
checks), executing the command changes the stack length by exactly its
static `stack_change` — except `Arr 0`, which additionally pushes one
value. -/
lemma evalCmd_length (fns : FloatFns) (inp : Inputs) (c : Cmd) (stack : List Val)
    (h : 1 ≤ (stack.length : ℤ) + stack_change c) :
    ((evalCmd fns inp stack c).length : ℤ) =
      stack.length + stack_change c + (if isArr0 c then (1 : ℤ) else 0) := by
  cases c with
  | Var v =>
    simp [evalCmd, stack_change, isArr0]
  | Literal l =>
    simp [evalCmd, stack_change, isArr0]
  | Bi op =>
    rcases stack with _ | ⟨b, _ | ⟨a, rest⟩⟩
    · simp [stack_change] at h
    · simp [stack_change] at h
    · simp [evalCmd, stack_change, isArr0]
  | Trig op =>
    rcases stack with _ | ⟨a, rest⟩
    · simp [stack_change] at h
    · simp [evalCmd, stack_change, isArr0]
  | BiFloat op =>
    rcases stack with _ | ⟨b, _ | ⟨a, rest⟩⟩
    · simp [stack_change] at h
    · simp [stack_change] at h
    · simp [evalCmd, stack_change, isArr0]
  | Comp op =>
    rcases stack with _ | ⟨b, _ | ⟨a, rest⟩⟩
    · simp [stack_change] at h
    · simp [stack_change] at h
    · simp [evalCmd, stack_change, isArr0]
  | Cond =>
    rcases stack with _ | ⟨c1, _ | ⟨b, _ | ⟨a, rest⟩⟩⟩
    · simp [stack_change] at h
    · simp [stack_change] at h
    · simp [stack_change] at h
    · simp [evalCmd, stack_change, isArr0]
      omega
  | Arr size =>
    cases size with
    | zero =>
      simp [evalCmd, stack_change, isArr0]
    | succ n =>
      rcases stack with _ | ⟨idx, rest⟩
      · simp [stack_change] at h
        omega
      · have hrest : n + 1 ≤ rest.length := by
          simp [stack_change] at h
          omega
        simp only [evalCmd, isArr0, stack_change, List.length_cons,
          List.length_drop]
        push_cast
        omega
  | Meta k v =>
    simp [evalCmd, stack_change, isArr0]
  | Comment t =>
    simp [evalCmd, stack_change, isArr0]

/-- Running a command list whose checks pass (starting from accumulated
depth `d`, which under-approximates the current stack length) changes the
stack length by the net static effect plus one for each `Arr 0`. -/
lemma foldl_evalCmd_length (fns : FloatFns) (inp : Inputs) :
    ∀ (cmds : List Cmd) (stack : List Val) (d : ℤ) (i : ℕ),
      d ≤ (stack.length : ℤ) → findErr cmds d i = none →
      ((cmds.foldl (evalCmd fns inp) stack).length : ℤ) =
        stack.length + depthSum cmds + countArr0 cmds := by
  intro cmds
  induction cmds with
  | nil =>
    intro stack d i _ _
    simp [depthSum, countArr0]
  | cons c rest ih =>
    intro stack d i hd hf
    rw [findErr] at hf
    by_cases h : d + stack_change c ≤ 0
    · rw [if_pos h] at hf
      exact absurd hf (by simp)
    · rw [if_neg h] at hf
      push_neg at h
      have hlen : 1 ≤ (stack.length : ℤ) + stack_change c := by omega
      have hstep := evalCmd_length fns inp c stack hlen
      have hbonus : (0 : ℤ) ≤ (if isArr0 c then (1 : ℤ) else 0) := by
        split <;> norm_num
      have hd2 : d + stack_change c ≤ ((evalCmd fns inp stack c).length : ℤ) := by
        rw [hstep]
        omega
      rw [List.foldl_cons, ih (evalCmd fns inp stack c) (d + stack_change c) (i + 1) hd2 hf,
        hstep, depthSum_cons, countArr0_cons]
      by_cases harr : isArr0 c
      · simp only [harr, if_true]
        push_cast
        ring
      · simp only [harr, if_false]
        push_cast
        ring

end Bytebeat

/-- C2 (amended): Stack-Beat compilation succeeds exactly when every
per-command check passes and the running depth over the whole command
sequence ends at at least 1 — not necessarily exactly 1.  Evaluating a
compiled program (with any inputs and any transcendental functions) ends
with exactly `depthSum + countArr0` values on the stack: the net static
effect, plus one for each `Arr 0` command (whose runtime effect pushes a
value although its static effect is 0).  In particular the final stack is
nonempty, so the result pop always succeeds, but a compiled program may
leave more than one value. -/
theorem C2_compile_final_depth :
    (∀ cmds : List Bytebeat.Cmd,
      (∃ p, Bytebeat.compile cmds = .ok p) ↔
        ((∀ j < cmds.length, 0 < Bytebeat.runDepth cmds j +
            Bytebeat.stack_change (Bytebeat.cmdAt cmds j)) ∧
          1 ≤ Bytebeat.depthSum cmds))
    ∧ (∀ (fns : Bytebeat.FloatFns) (inp : Bytebeat.Inputs)
        (cmds : List Bytebeat.Cmd) (p : Bytebeat.Program),
        Bytebeat.compile cmds = .ok p →
        ((Bytebeat.runCmds fns inp cmds).length : ℤ) =
            Bytebeat.depthSum cmds + Bytebeat.countArr0 cmds
          ∧ 1 ≤ (Bytebeat.runCmds fns inp cmds).length) := by
  refine ⟨Bytebeat.compile_ok_iff, ?_⟩
  intro fns inp cmds p hp
  obtain ⟨hall, hpos⟩ := (Bytebeat.compile_ok_iff cmds).1 ⟨p, hp⟩
  have hf : Bytebeat.findErr cmds 0 0 = none :=
    (Bytebeat.findErr_none_iff cmds 0 0).2
      (fun j hj => by have := hall j hj; omega)
  have hlen := Bytebeat.foldl_evalCmd_length fns inp cmds [] 0 0 (by simp) hf
  simp only [List.length_nil, Nat.cast_zero, zero_add] at hlen
  rw [Bytebeat.runCmds]
  refine ⟨hlen, ?_⟩
  have hc : (0 : ℤ) ≤ (Bytebeat.countArr0 cmds : ℤ) := by positivity
  omega

/-- C2 witness: the amended theorem applied to the program `5`, which
compiles and leaves exactly one value. -/
theorem C2_compile_final_depth_witness :
    ((Bytebeat.runCmds Bytebeat.defaultFns Bytebeat.zeroInputs
        [Bytebeat.Cmd.Literal (.NumI 5)]).length : ℤ) =
      Bytebeat.depthSum [Bytebeat.Cmd.Literal (.NumI 5)] +
        Bytebeat.countArr0 [Bytebeat.Cmd.Literal (.NumI 5)]
    ∧ 1 ≤ (Bytebeat.runCmds Bytebeat.defaultFns Bytebeat.zeroInputs
        [Bytebeat.Cmd.Literal (.NumI 5)]).length :=
  C2_compile_final_depth.2 Bytebeat.defaultFns Bytebeat.zeroInputs
    [Bytebeat.Cmd.Literal (.NumI 5)]
    ⟨[Bytebeat.Cmd.Literal (.NumI 5)], []⟩ (by decide)

/-- C2 counterexample: the claim asserts compilation succeeds only when
the final depth is exactly 1 and that no compiled program ever leaves two
or more values; but `1 2 3` (three integer literals) compiles, has net
stack effect 3, and evaluation ends with 3 values on the stack. -/
theorem C2_three_values_counterexample :
    Bytebeat.compile Bytebeat.csThree = .ok ⟨Bytebeat.csThree, []⟩
    ∧ Bytebeat.depthSum Bytebeat.csThree = 3
    ∧ (Bytebeat.runCmds Bytebeat.defaultFns Bytebeat.zeroInputs
        Bytebeat.csThree).length = 3 := by
  exact ⟨by decide, by decide, by decide⟩

namespace Bytebeat

/-- C3: Stack-Beat binary operands bind in source order, for every
binary operation — integer, float, and comparison.  In the head-is-top
stack model, the token sequence `a b OP` reaches the operator with stack
`b :: a :: rest`; the popped top (`b`) binds to the second-declared
parameter and the value below (`a`) to the first.  The first conjunct
pins this for all ten integer operations (`x` pushed first, `y` on top:
`Sub` computes `x - y`, `Div` computes `x / y`, `Shl` shifts `x` by `y`,
etc.), the second for all six float operations (`Pow` computes `p ^ q`
with `p` pushed first, `SubF` computes `p - q`, etc.), and the third for
all six comparisons (the value pushed first is the left operand of
`partial_cmp`/`eq`).  Concretely `7 2 -` evaluates to integer 5 (not
-5), `1 2 <` to integer 1 and `2 1 <` to integer 0, and the program
`t 2 %` compiles and evaluates to integer 1 at `t = 5` and to integer 0
at `t = 4`. -/
theorem C3_operand_binding :
    (∀ (fns : FloatFns) (inp : Inputs) (x y : ℤ) (rest : List Val),
      evalCmd fns inp (Val.I y :: Val.I x :: rest) (Cmd.Bi .Add) =
          Val.I (wrap64 (x + y)) :: rest
        ∧ evalCmd fns inp (Val.I y :: Val.I x :: rest) (Cmd.Bi .Sub) =
          Val.I (wrap64 (x - y)) :: rest
        ∧ evalCmd fns inp (Val.I y :: Val.I x :: rest) (Cmd.Bi .Mul) =
          Val.I (wrap64 (x * y)) :: rest
        ∧ evalCmd fns inp (Val.I y :: Val.I x :: rest) (Cmd.Bi .Div) =
          Val.I (if y = 0 then 0 else wrap64 (x.tdiv y)) :: rest
        ∧ evalCmd fns inp (Val.I y :: Val.I x :: rest) (Cmd.Bi .Mod) =
          Val.I (if y = 0 then 0 else wrap64 (x.tmod y)) :: rest
        ∧ evalCmd fns inp (Val.I y :: Val.I x :: rest) (Cmd.Bi .Shl) =
          Val.I (wrap64 (x * 2 ^ (posMod y 64).toNat)) :: rest
        ∧ evalCmd fns inp (Val.I y :: Val.I x :: rest) (Cmd.Bi .Shr) =
          Val.I (x.fdiv (2 ^ (posMod y 64).toNat)) :: rest
        ∧ evalCmd fns inp (Val.I y :: Val.I x :: rest) (Cmd.Bi .And) =
          Val.I (i64_land x y) :: rest
        ∧ evalCmd fns inp (Val.I y :: Val.I x :: rest) (Cmd.Bi .Orr) =
          Val.I (i64_lor x y) :: rest
        ∧ evalCmd fns inp (Val.I y :: Val.I x :: rest) (Cmd.Bi .Xor) =
          Val.I (i64_lxor x y) :: rest)
    ∧ (∀ (fns : FloatFns) (inp : Inputs) (p q : ℚ) (rest : List Val),
      evalCmd fns inp (Val.F q :: Val.F p :: rest) (Cmd.BiFloat .Pow) =
          Val.F (fns.powF p q) :: rest
        ∧ evalCmd fns inp (Val.F q :: Val.F p :: rest) (Cmd.BiFloat .AddF) =
          Val.F (p + q) :: rest
        ∧ evalCmd fns inp (Val.F q :: Val.F p :: rest) (Cmd.BiFloat .SubF) =
          Val.F (p - q) :: rest
        ∧ evalCmd fns inp (Val.F q :: Val.F p :: rest) (Cmd.BiFloat .MulF) =
          Val.F (p * q) :: rest
        ∧ evalCmd fns inp (Val.F q :: Val.F p :: rest) (Cmd.BiFloat .DivF) =
          Val.F (if q = 0 then 0 else p / q) :: rest
        ∧ evalCmd fns inp (Val.F q :: Val.F p :: rest) (Cmd.BiFloat .ModF) =
          Val.F (if q = 0 then 0 else fmodQ p q) :: rest)
    ∧ (∀ (fns : FloatFns) (inp : Inputs) (v w : Val) (rest : List Val),
      evalCmd fns inp (w :: v :: rest) (Cmd.Comp .Lt) =
          Val.ofB (valCmp v w == .lt) :: rest
        ∧ evalCmd fns inp (w :: v :: rest) (Cmd.Comp .Gt) =
          Val.ofB (valCmp v w == .gt) :: rest
        ∧ evalCmd fns inp (w :: v :: rest) (Cmd.Comp .Leq) =
          Val.ofB (valCmp v w != .gt) :: rest
        ∧ evalCmd fns inp (w :: v :: rest) (Cmd.Comp .Geq) =
          Val.ofB (valCmp v w != .lt) :: rest
        ∧ evalCmd fns inp (w :: v :: rest) (Cmd.Comp .Eq) =
          Val.ofB (valEq v w) :: rest
        ∧ evalCmd fns inp (w :: v :: rest) (Cmd.Comp .Neq) =
          Val.ofB (!(valEq v w)) :: rest)
    ∧ eval_beat defaultFns zeroInputs
        ⟨[.Literal (.NumI 7), .Literal (.NumI 2), .Bi .Sub], []⟩ = Val.I 5
    ∧ eval_beat defaultFns zeroInputs
        ⟨[.Literal (.NumI 1), .Literal (.NumI 2), .Comp .Lt], []⟩ = Val.I 1
    ∧ eval_beat defaultFns zeroInputs
        ⟨[.Literal (.NumI 2), .Literal (.NumI 1), .Comp .Lt], []⟩ = Val.I 0
    ∧ compile csTMod = .ok ⟨csTMod, []⟩
    ∧ eval_beat defaultFns (inputsT 5) ⟨csTMod, []⟩ = Val.I 1
    ∧ eval_beat defaultFns (inputsT 4) ⟨csTMod, []⟩ = Val.I 0 :=
  ⟨fun _ _ _ _ _ => ⟨rfl, rfl, rfl, rfl, rfl, rfl, rfl, rfl, rfl, rfl⟩,
    fun _ _ _ _ _ => ⟨rfl, rfl, rfl, rfl, rfl, rfl⟩,
    fun _ _ _ _ _ => ⟨rfl, rfl, rfl, rfl, rfl, rfl⟩,
    by decide, by decide, by decide, by decide, by decide, by decide⟩

/-- C7: Stack-Beat division and modulo by zero never fault.  Whenever the
popped divisor (the top of the stack) converts to integer 0, the integer
`Div` and `Mod` operations push integer 0; whenever it converts to float
0.0, the float `DivF` and `ModF` operations push float 0.0.  Concretely
`5 0 /` compiles and evaluates to integer 0, and `5.0 0.0 /.` compiles and
evaluates to float 0.0. -/
theorem C7_div_mod_by_zero :
    (∀ (fns : FloatFns) (inp : Inputs) (w v : Val) (rest : List Val),
      w.toI = 0 →
        evalCmd fns inp (w :: v :: rest) (Cmd.Bi .Div) = Val.I 0 :: rest
          ∧ evalCmd fns inp (w :: v :: rest) (Cmd.Bi .Mod) = Val.I 0 :: rest)
    ∧ (∀ (fns : FloatFns) (inp : Inputs) (w v : Val) (rest : List Val),
      w.toF = 0 →
        evalCmd fns inp (w :: v :: rest) (Cmd.BiFloat .DivF) = Val.F 0 :: rest
          ∧ evalCmd fns inp (w :: v :: rest) (Cmd.BiFloat .ModF) = Val.F 0 :: rest)
    ∧ compile csDivZ = .ok ⟨csDivZ, []⟩
    ∧ eval_beat defaultFns zeroInputs ⟨csDivZ, []⟩ = Val.I 0
    ∧ compile csDivFZ = .ok ⟨csDivFZ, []⟩
    ∧ eval_beat defaultFns zeroInputs ⟨csDivFZ, []⟩ = Val.F 0 := by
  refine ⟨?_, ?_, by decide, by decide, by decide, by decide⟩
  · intro fns inp w v rest hw
    constructor
    · simp [evalCmd, biOp, hw]
    · simp [evalCmd, biOp, hw]
  · intro fns inp w v rest hw
    constructor
    · simp [evalCmd, bfOp, hw]
    · simp [evalCmd, bfOp, hw]

/-- C7 witness: the div/mod-by-zero theorem applied to divisor `I 0` over
dividend `I 7`. -/
theorem C7_div_mod_by_zero_witness :
    evalCmd defaultFns zeroInputs (Val.I 0 :: Val.I 7 :: []) (Cmd.Bi .Div) =
        Val.I 0 :: ([] : List Val)
      ∧ evalCmd defaultFns zeroInputs (Val.I 0 :: Val.I 7 :: []) (Cmd.Bi .Mod) =
        Val.I 0 :: ([] : List Val) :=
  C7_div_mod_by_zero.1 defaultFns zeroInputs (Val.I 0) (Val.I 7) [] rfl

/-- Rust's truncated remainder by a positive modulus is strictly above the
negated modulus. -/
lemma tmod_lower (a n : ℤ) (hn : 0 < n) : -n < a.tmod n := by
  cases a with
  | ofNat m =>
    have h := Int.tmod_nonneg (a := Int.ofNat m) n (Int.ofNat_zero_le m)
    omega
  | negSucc m =>
    obtain ⟨k, rfl⟩ : ∃ k : ℕ, n = (k : ℤ) :=
      ⟨n.toNat, (Int.toNat_of_nonneg hn.le).symm⟩
    have hred : Int.tmod (Int.negSucc m) (k : ℤ) =
        -((Nat.succ m % k : ℕ) : ℤ) := rfl
    rw [hred]
    have hk : 0 < k := by exact_mod_cast hn
    have hlt := Nat.mod_lt (Nat.succ m) hk
    omega

/-- The positive modulo computed by the source lands in `[0, n)` for a
positive modulus. -/
lemma posMod_bounds (a n : ℤ) (hn : 0 < n) :
    0 ≤ posMod a n ∧ posMod a n < n := by
  rw [posMod]
  have h1 := tmod_lower a n hn
  have h3 : 0 ≤ a.tmod n + n := by omega
  exact ⟨Int.tmod_nonneg n h3, Int.tmod_lt_of_pos (a.tmod n + n) hn⟩

/-- `Arr n` on a stack holding the index above a group of `n` values pops
the index, removes the `n` values below it as a contiguous group, and
pushes back the group element selected by the positive modulo of the
index (the group's order is the order it was pushed, i.e. the reverse of
the head-is-top prefix). -/
lemma evalCmd_arr_group (fns : FloatFns) (inp : Inputs) (idx : Val)
    (grp rest : List Val) (n : ℕ) (hn : 0 < n) (hg : grp.length = n) :
    evalCmd fns inp (idx :: (grp ++ rest)) (Cmd.Arr n) =
      grp.reverse.getD (posMod idx.toI (n : ℤ)).toNat (Val.I 0) :: rest := by
  obtain ⟨m, rfl⟩ : ∃ m, n = m + 1 := ⟨n - 1, by omega⟩
  have h1 : (grp ++ rest).take (m + 1) = grp := List.take_left' hg
  have h2 : (grp ++ rest).drop (m + 1) = rest := List.drop_left' hg
  simp only [evalCmd, h1, h2]
  norm_cast

/-- C8: `Arr 0` pushes integer 0 without popping anything; `Arr n` for
`n > 0` pops one index value (converted to integer), removes the `n`
values immediately below it as a contiguous group in pushed order, and
pushes back only the value selected by the positive (non-negative) modulo
of the index against `n`, which always lands in `[0, n)`.  Concretely,
for `1 2 3 i [3`, the indices -1, 0, 3, 4 select the same elements as
indices 2, 0, 0, 1 respectively (values 3, 1, 1, 2). -/
theorem C8_array_index :
    (∀ (fns : FloatFns) (inp : Inputs) (stack : List Val),
      evalCmd fns inp stack (Cmd.Arr 0) = Val.I 0 :: stack)
    ∧ (∀ (fns : FloatFns) (inp : Inputs) (idx : Val) (grp rest : List Val) (n : ℕ),
      0 < n → grp.length = n →
        evalCmd fns inp (idx :: (grp ++ rest)) (Cmd.Arr n) =
            grp.reverse.getD (posMod idx.toI (n : ℤ)).toNat (Val.I 0) :: rest
          ∧ 0 ≤ posMod idx.toI (n : ℤ) ∧ posMod idx.toI (n : ℤ) < (n : ℤ))
    ∧ compile (csArr (-1)) = .ok ⟨csArr (-1), []⟩
    ∧ eval_beat defaultFns zeroInputs ⟨csArr (-1), []⟩ =
        eval_beat defaultFns zeroInputs ⟨csArr 2, []⟩
    ∧ eval_beat defaultFns zeroInputs ⟨csArr 3, []⟩ =
        eval_beat defaultFns zeroInputs ⟨csArr 0, []⟩
    ∧ eval_beat defaultFns zeroInputs ⟨csArr 4, []⟩ =
        eval_beat defaultFns zeroInputs ⟨csArr 1, []⟩
    ∧ eval_beat defaultFns zeroInputs ⟨csArr (-1), []⟩ = Val.I 3
    ∧ eval_beat defaultFns zeroInputs ⟨csArr 0, []⟩ = Val.I 1
    ∧ eval_beat defaultFns zeroInputs ⟨csArr 4, []⟩ = Val.I 2 := by
  refine ⟨fun _ _ _ => rfl, ?_, by decide, by decide, by decide, by decide,
    by decide, by decide, by decide⟩
  intro fns inp idx grp rest n hn hg
  have hnz : (0 : ℤ) < (n : ℤ) := by exact_mod_cast hn
  obtain ⟨hb1, hb2⟩ := posMod_bounds idx.toI (n : ℤ) hnz
  exact ⟨evalCmd_arr_group fns inp idx grp rest n hn hg, hb1, hb2⟩

/-- C8 witness: the array-index theorem applied to index `I 5` over a
one-element group. -/
theorem C8_array_index_witness :
    evalCmd defaultFns zeroInputs (Val.I 5 :: ([Val.I 7] ++ [])) (Cmd.Arr 1) =
        ([Val.I 7] : List Val).reverse.getD
          (posMod (Val.I 5).toI ((1 : ℕ) : ℤ)).toNat (Val.I 0) :: ([] : List Val)
      ∧ 0 ≤ posMod (Val.I 5).toI ((1 : ℕ) : ℤ)
      ∧ posMod (Val.I 5).toI ((1 : ℕ) : ℤ) < ((1 : ℕ) : ℤ) :=
  C8_array_index.2.1 defaultFns zeroInputs (Val.I 5) [Val.I 7] [] 1
    (by decide) (by decide)

end Bytebeat

namespace BF

/-- Every instruction in the mutation-candidate list has brace delta 0. -/
lemma braceDelta_of_mem_mutationChoices {c : BFChar} (hc : c ∈ mutationChoices) :
    braceDelta c = 0 := by
  fin_cases hc <;> rfl

/-- Replacing an instruction by `mutateInstr` preserves its brace delta
whenever the drawn replacement comes from `mutationChoices`. -/
lemma braceDelta_mutateInstr (choice : ℕ → BFChar) (i : ℕ) (c : BFChar)
    (hchoice : choice i ∈ mutationChoices) :
    braceDelta (mutateInstr choice i c) = braceDelta c := by
  cases c with
  | StartLoop => rfl
  | EndLoop => rfl
  | Plus => exact braceDelta_of_mem_mutationChoices hchoice
  | Minus => exact braceDelta_of_mem_mutationChoices hchoice
  | Left => exact braceDelta_of_mem_mutationChoices hchoice
  | Right => exact braceDelta_of_mem_mutationChoices hchoice
  | Input => exact braceDelta_of_mem_mutationChoices hchoice
  | Output => exact braceDelta_of_mem_mutationChoices hchoice

/-- The mutation loop is invisible to the validator: the mutated list
validates from any accumulator exactly as the original does. -/
lemma mutateGo_isValidGo (sel : ℕ → Bool) (choice : ℕ → BFChar)
    (hchoice : ∀ i, choice i ∈ mutationChoices) :
    ∀ (instrs : List BFChar) (i : ℕ) (n : ℤ),
      isValidGo (mutateGo sel choice i instrs) n = isValidGo instrs n := by
  intro instrs
  induction instrs with
  | nil => intro i n; rfl
  | cons c rest ih =>
    intro i n
    rw [mutateGo]
    have hdelta : braceDelta (if sel i then mutateInstr choice i c else c) =
        braceDelta c := by
      by_cases hs : sel i
      · rw [if_pos hs]
        exact braceDelta_mutateInstr choice i c (hchoice i)
      · rw [if_neg hs]
    rw [isValidGo, isValidGo, hdelta]
    by_cases hneg : n + braceDelta c < 0
    · rw [if_pos hneg, if_pos hneg]
    · rw [if_neg hneg, if_neg hneg]
      exact ih (i + 1) (n + braceDelta c)

end BF

namespace Bytebeat

/-- A successful `mutateCmd` replacement has the same static stack effect
as the command it replaces (family preservation). -/
lemma mutateCmd_stack_change (o : MutOracle) (i : ℕ) (c c2 : Cmd)
    (h : mutateCmd o i c = some c2) : stack_change c2 = stack_change c := by
  cases c with
  | Var v => simp only [mutateCmd, Option.some.injEq] at h; subst h; rfl
  | Literal l => simp only [mutateCmd, Option.some.injEq] at h; subst h; rfl
  | Bi op => simp only [mutateCmd, Option.some.injEq] at h; subst h; rfl
  | Trig op => simp only [mutateCmd, Option.some.injEq] at h; subst h; rfl
  | BiFloat op => simp only [mutateCmd, Option.some.injEq] at h; subst h; rfl
  | Comp op => simp only [mutateCmd, Option.some.injEq] at h; subst h; rfl
  | Cond => simp [mutateCmd] at h
  | Arr s => simp [mutateCmd] at h
  | Meta k v => simp [mutateCmd] at h
  | Comment t => simp [mutateCmd] at h

/-- On a command list all of whose commands are in the mutable families,
the mutation loop never panics, and the result has pointwise the same
static stack effects. -/
lemma mutateGo_some (sel : ℕ → Bool) (o : MutOracle) :
    ∀ (cmds : List Cmd) (i : ℕ), (∀ c ∈ cmds, inMutationFamily c = true) →
      ∃ l2, mutateGo sel o i cmds = some l2 ∧
        l2.map stack_change = cmds.map stack_change := by
  intro cmds
  induction cmds with
  | nil => intro i _; exact ⟨[], rfl, rfl⟩
  | cons c rest ih =>
    intro i hfam
    obtain ⟨l2, hl2, hmap⟩ := ih (i + 1) (fun x hx => hfam x (List.mem_cons_of_mem c hx))
    by_cases hs : sel i
    · have hfamc := hfam c (List.mem_cons_self c rest)
      have hc : ∃ c2, mutateCmd o i c = some c2 := by
        cases c with
        | Var v => exact ⟨_, rfl⟩
        | Literal l => exact ⟨_, rfl⟩
        | Bi op => exact ⟨_, rfl⟩
        | Trig op => exact ⟨_, rfl⟩
        | BiFloat op => exact ⟨_, rfl⟩
        | Comp op => exact ⟨_, rfl⟩
        | Cond => simp [inMutationFamily] at hfamc
        | Arr s => simp [inMutationFamily] at hfamc
        | Meta k v => simp [inMutationFamily] at hfamc
        | Comment t => simp [inMutationFamily] at hfamc
      obtain ⟨c2, hc2⟩ := hc
      refine ⟨c2 :: l2, ?_, ?_⟩
      · rw [mutateGo, if_pos hs, hc2, hl2]
      · simp [hmap, mutateCmd_stack_change o i c c2 hc2]
    · refine ⟨c :: l2, ?_, ?_⟩
      · rw [mutateGo, if_neg hs, hl2]
      · simp [hmap]

/-- The `compile` scan only looks at static stack effects: two command
lists with pointwise equal effects scan identically. -/
lemma findErr_congr : ∀ (l1 l2 : List Cmd),
    l1.map stack_change = l2.map stack_change →
    ∀ (d : ℤ) (i : ℕ), findErr l1 d i = findErr l2 d i
  | [], [], _, _, _ => rfl
  | [], c :: _, h, _, _ => by simp at h
  | c :: _, [], h, _, _ => by simp at h
  | c1 :: r1, c2 :: r2, h, d, i => by
    simp only [List.map_cons, List.cons.injEq] at h
    obtain ⟨h1, h2⟩ := h
    rw [findErr, findErr, h1]
    by_cases hneg : d + stack_change c2 ≤ 0
    · rw [if_pos hneg, if_pos hneg]
    · rw [if_neg hneg, if_neg hneg]
      exact findErr_congr r1 r2 h2 _ _

/-- A command list with pointwise the same static stack effects as a
compiling one also compiles. -/
lemma compile_ok_congr (l1 l2 : List Cmd)
    (h : l1.map stack_change = l2.map stack_change)
    (p : Program) (hp : compile l2 = .ok p) : ∃ p2, compile l1 = .ok p2 := by
  cases hf : findErr l2 0 0 with
  | some pair =>
    obtain ⟨i2, d2⟩ := pair
    rw [compile, hf] at hp
    exact absurd hp (by simp)
  | none =>
    rw [compile, hf] at hp
    have hds : depthSum l1 = depthSum l2 := by
      rw [depthSum, depthSum, h]
    by_cases hz : depthSum l2 = 0
    · rw [if_pos hz] at hp
      exact absurd hp (by simp)
    · refine ⟨⟨l1, collectMeta l1⟩, ?_⟩
      rw [compile, findErr_congr l1 l2 h 0 0, hf, if_neg (by omega)]

end Bytebeat

/-- C6 (amended): mutation preserves compilability on its supported
domain.  For CT-Lang, for every valid program and every outcome of the
mutation draws (with replacements drawn, as in the source, from the six
non-loop instructions), the mutated instruction list passes `is_valid`.
For Stack-Beat, for every compiled program all of whose commands lie in
the six mutable families (`Var`/`Literal`/`Bi`/`Trig`/`BiFloat`/`Comp`),
`mutate` terminates without fault and its result recompiles successfully.
(The restriction is necessary: a compiled program may contain `Cond`,
`Arr`, `Meta` or `Comment`, and mutating such a command panics, see the
counterexample.) -/
theorem C6_mutation_amended :
    (∀ (instrs : List BF.BFChar) (sel : ℕ → Bool) (choice : ℕ → BF.BFChar),
      (∀ i, choice i ∈ BF.mutationChoices) →
      BF.is_valid instrs = true →
      BF.is_valid (BF.mutate instrs sel choice) = true)
    ∧ (∀ (cmds : List Bytebeat.Cmd) (sel : ℕ → Bool) (o : Bytebeat.MutOracle)
        (p : Bytebeat.Program),
      Bytebeat.compile cmds = .ok p →
      (∀ c ∈ cmds, Bytebeat.inMutationFamily c = true) →
      ∃ l2, Bytebeat.mutate cmds sel o = some l2 ∧
        ∃ p2, Bytebeat.compile l2 = .ok p2) := by
  constructor
  · intro instrs sel choice hchoice hvalid
    rw [BF.is_valid, BF.mutate, BF.mutateGo_isValidGo sel choice hchoice instrs 0 0]
    exact hvalid
  · intro cmds sel o p hp hfam
    obtain ⟨l2, hl2, hmap⟩ := Bytebeat.mutateGo_some sel o cmds 0 hfam
    exact ⟨l2, hl2, Bytebeat.compile_ok_congr l2 cmds hmap p hp⟩

/-- C6 counterexample: the claim asserts `mutate` never faults on any
valid program; but `1 2 3 ?` compiles (it contains `Cond`), and mutating
it with every draw firing (the guaranteed outcome at mutation probability
1.0) hits the source's `unimplemented!()` panic, modelled as `none`. -/
theorem C6_mutate_cond_counterexample :
    Bytebeat.compile Bytebeat.csCond = .ok ⟨Bytebeat.csCond, []⟩
    ∧ Bytebeat.mutate Bytebeat.csCond Bytebeat.alwaysMutate
        Bytebeat.defaultOracle = none := by
  exact ⟨by decide, by decide⟩

/-- C6 witness: the amended mutation theorem applied to the valid CT-Lang
program `+` (every position mutated to `-`) and to the compiling
Stack-Beat program `1` (every position mutated). -/
theorem C6_mutation_amended_witness :
    BF.is_valid (BF.mutate [BF.BFChar.Plus] (fun _ => true)
        (fun _ => BF.BFChar.Minus)) = true
    ∧ ∃ l2, Bytebeat.mutate [Bytebeat.Cmd.Literal (.NumI 1)]
          Bytebeat.alwaysMutate Bytebeat.defaultOracle = some l2 ∧
        ∃ p2, Bytebeat.compile l2 = .ok p2 :=
  ⟨C6_mutation_amended.1 [BF.BFChar.Plus] (fun _ => true)
      (fun _ => BF.BFChar.Minus)
      (fun _ => by show BF.BFChar.Minus ∈ BF.mutationChoices; decide) (by decide),
    C6_mutation_amended.2 [Bytebeat.Cmd.Literal (.NumI 1)]
      Bytebeat.alwaysMutate Bytebeat.defaultOracle
      ⟨[Bytebeat.Cmd.Literal (.NumI 1)], []⟩ (by decide) (by decide)⟩
